import Mathlib

/-!
Verification development for the `python_weekly` repository.

The repository's diff walkthrough (`src/string_test/difflib_test.py`) only
calls a pre-built library sequence matcher; the implementation itself is not
part of the repository's sources.  The specification (spec.md §2-§4)
reconstructs that component as `SequenceDiffEngine`.  The definitions in the
`SeqDiff` namespace below are therefore modelled from the spec, and the
theorems settle the spec's claims against that model.  The final sections
embed `src/basics/lambda.py` and the template-substitution demo of
`src/string_test/string_template.py`.
-/

set_option maxRecDepth 100000

namespace SeqDiff

/-- A `Match` triple `(a, b, size)` meaning `A[a:a+size] == B[b:b+size]`
(spec.md §3). -/
structure Match where
  a : Nat
  b : Nat
  size : Nat
  deriving DecidableEq

/-- Opcode tags (spec.md §3): `equal`, `insert`, `delete`, `replace`. -/
inductive Tag where
  | replace
  | delete
  | insert
  | equal
  deriving DecidableEq

/-- A tagged opcode record with four indices `(i1, i2, j1, j2)` (spec.md §3). -/
structure Opcode where
  tag : Tag
  i1 : Nat
  i2 : Nat
  j1 : Nat
  j2 : Nat
  deriving DecidableEq

/-- Error taxonomy of spec.md §7: `InvalidInput` and `InvalidRange`. -/
inductive DiffError where
  | InvalidInput
  | InvalidRange
  deriving DecidableEq

/-- Modelled from the spec: a `SequenceDiffEngine` instance is constructed from
`(JunkPredicate?, A, B)` together with the toggleable autojunk heuristic
(spec.md §3, §4.1); the repository only consumes such an engine, so the state
is reconstructed here. -/
structure Engine (α : Type) where
  isjunk : Option (α → Bool)
  autojunk : Bool
  a : List α
  b : List α

variable {α : Type}

/-- Elements at positions `i` of `a` and `j` of `b` both exist and are equal. -/
def EltEq (a b : List α) (i j : Nat) : Prop :=
  a[i]?.isSome = true ∧ a[i]? = b[j]?

instance instDecEltEq [DecidableEq α] (a b : List α) (i j : Nat) :
    Decidable (EltEq a b i j) := by
  unfold EltEq
  infer_instance

/-- The two slices of length `k` starting at `a[i]` and `b[j]` exist
elementwise and agree. -/
def MatchAt (a b : List α) (i j k : Nat) : Prop :=
  ∀ t, t < k → EltEq a b (i + t) (j + t)

instance instDecMatchAt [DecidableEq α] (a b : List α) (i j k : Nat) :
    Decidable (MatchAt a b i j k) := by
  unfold MatchAt
  infer_instance

/-- Whether position `j` of `b` holds a junk element (`false` out of range). -/
def junkAt (junk : α → Bool) (b : List α) (j : Nat) : Bool :=
  match b[j]? with
  | some y => junk y
  | none => false

/-- Modelled from the spec: the effective junk classification of the engine,
combining the optional junk predicate with the autojunk heuristic — any
element occupying more than 1% of `B`'s length when `B` has at least 200
elements (spec.md §3). -/
def effJunk [DecidableEq α] (e : Engine α) : α → Bool := fun y =>
  (match e.isjunk with
   | some f => f y
   | none => false) ||
  (e.autojunk && decide (200 ≤ e.b.length) && decide (e.b.length < 100 * e.b.count y))

/-- Length of the run of pairwise-equal, non-junk elements starting at
`a[i]`/`b[j]`, stopping before `b`-position `bhi`; `fuel` bounds the run on
the `a` side (it is instantiated with `ahi - i`). -/
def matchRun [DecidableEq α] (junk : α → Bool) (a b : List α) (bhi : Nat) :
    Nat → Nat → Nat → Nat
  | 0, _, _ => 0
  | fuel + 1, i, j =>
    if j < bhi ∧ EltEq a b i j ∧ junkAt junk b j = false then
      matchRun junk a b bhi fuel (i + 1) (j + 1) + 1
    else 0

/-- Length of the maximal non-junk matching run starting at `a[i]`/`b[j]`
within the half-open ranges `[·, ahi)` and `[·, bhi)`. -/
def matchLen [DecidableEq α] (junk : α → Bool) (a b : List α)
    (ahi bhi i j : Nat) : Nat :=
  matchRun junk a b bhi (ahi - i) i j

/-- Strict preference between matches: larger `size` first, then smaller `a`,
then smaller `b` (spec.md §4.1 tie-breaking). -/
def Better (m1 m2 : Match) : Prop :=
  m2.size < m1.size ∨
    (m1.size = m2.size ∧ (m1.a < m2.a ∨ (m1.a = m2.a ∧ m1.b < m2.b)))

instance instDecBetter (m1 m2 : Match) : Decidable (Better m1 m2) := by
  unfold Better
  infer_instance

/-- All candidate starting pairs `(i, j)` in the search ranges, each with its
maximal non-junk run length. -/
def candidates [DecidableEq α] (junk : α → Bool) (a b : List α)
    (alo ahi blo bhi : Nat) : List Match :=
  (List.range (ahi - alo)).flatMap fun di =>
    (List.range (bhi - blo)).map fun dj =>
      ⟨alo + di, blo + dj, matchLen junk a b ahi bhi (alo + di) (blo + dj)⟩

/-- Keep the preferred of two matches, the current one on ties. -/
def pickBetter (cur c : Match) : Match :=
  if Better c cur then c else cur

/-- The best non-junk match in the ranges: maximal `size`, ties broken by
smallest `a`, then smallest `b`; `(alo, blo, 0)` when no match exists. -/
def bestMatch [DecidableEq α] (junk : α → Bool) (a b : List α)
    (alo ahi blo bhi : Nat) : Match :=
  (candidates junk a b alo ahi blo bhi).foldl pickBetter ⟨alo, blo, 0⟩

/-- Number of positions a match starting at `a[i]`/`b[j]` can be widened to
the left through equal elements without crossing `alo`/`blo` (spec.md §4.1
junk-absorbing extension). -/
def extLeft [DecidableEq α] (a b : List α) (alo blo : Nat) : Nat → Nat → Nat
  | i + 1, j + 1 =>
    if alo ≤ i ∧ blo ≤ j ∧ EltEq a b i j then extLeft a b alo blo i j + 1
    else 0
  | _, _ => 0

/-- Number of positions a match ending at `a[i]`/`b[j]` can be widened to the
right through equal elements; `fuel` is instantiated with `ahi - i`. -/
def extRight [DecidableEq α] (a b : List α) (bhi : Nat) : Nat → Nat → Nat → Nat
  | 0, _, _ => 0
  | fuel + 1, i, j =>
    if j < bhi ∧ EltEq a b i j then extRight a b bhi fuel (i + 1) (j + 1) + 1
    else 0

/-- Modelled from the spec: `findLongestMatch` (spec.md §4.1) over explicit
junk classification — best non-junk match, then widened on both sides through
adjacent equal elements (junk-absorbing extension). -/
def flmCore [DecidableEq α] (junk : α → Bool) (a b : List α)
    (alo ahi blo bhi : Nat) : Match :=
  let base := bestMatch junk a b alo ahi blo bhi
  let l := extLeft a b alo blo base.a base.b
  let r := extRight a b bhi (ahi - (base.a + base.size)) (base.a + base.size)
    (base.b + base.size)
  ⟨base.a - l, base.b - l, base.size + l + r⟩

/-- Modelled from the spec: engine construction `new(isJunk?, a, b)`
(spec.md §4.1) with the autojunk heuristic enabled by default. -/
def SequenceDiffEngine.new (isjunk : Option (α → Bool)) (a b : List α) :
    Engine α :=
  ⟨isjunk, true, a, b⟩

/-- Modelled from the spec: `findLongestMatch(aLo, aHi, bLo, bHi)` of
spec.md §4.1. -/
def Engine.find_longest_match [DecidableEq α] (e : Engine α)
    (alo ahi blo bhi : Nat) : Match :=
  flmCore (effJunk e) e.a e.b alo ahi blo bhi

/-- Modelled from the spec: range-checked entry point of `findLongestMatch`;
out-of-bounds indices are reported as `InvalidRange` (spec.md §7), never a
process-fatal failure. -/
def Engine.find_longest_match_checked [DecidableEq α] (e : Engine α)
    (alo ahi blo bhi : Nat) : Except DiffError Match :=
  if alo ≤ ahi ∧ ahi ≤ e.a.length ∧ blo ≤ bhi ∧ bhi ≤ e.b.length then
    Except.ok (e.find_longest_match alo ahi blo bhi)
  else
    Except.error DiffError.InvalidRange

/-- Modelled from the spec: constructor guard — fails with `InvalidInput`
only if an input is not a valid sequence (null where a sequence was
required), never on empty sequences (spec.md §4.1, §7). -/
def SequenceDiffEngine.newChecked (isjunk : Option (α → Bool)) :
    Option (List α) → Option (List α) → Except DiffError (Engine α)
  | some a, some b => Except.ok (SequenceDiffEngine.new isjunk a b)
  | _, _ => Except.error DiffError.InvalidInput

/-- Modelled from the spec: divide-and-conquer collection of maximal matching
blocks (spec.md §4.1 `getMatchingBlocks`), recursing on the ranges before and
after each discovered match; `fuel` bounds the recursion depth and is
instantiated with `len(A) + 1`. -/
def matchingBlocksAux [DecidableEq α] (junk : α → Bool) (a b : List α) :
    Nat → Nat → Nat → Nat → Nat → List Match
  | 0, _, _, _, _ => []
  | fuel + 1, alo, ahi, blo, bhi =>
    let m := flmCore junk a b alo ahi blo bhi
    if 0 < m.size ∧ alo ≤ m.a ∧ m.a + m.size ≤ ahi ∧ blo ≤ m.b ∧
        m.b + m.size ≤ bhi then
      matchingBlocksAux junk a b fuel alo m.a blo m.b ++
        m :: matchingBlocksAux junk a b fuel (m.a + m.size) ahi (m.b + m.size) bhi
    else []

/-- Merge pass of `getMatchingBlocks`: coalesce adjacent blocks that are
contiguous in both sequences (spec.md §4.1). -/
def mergeGo : Match → List Match → List Match
  | cur, [] => [cur]
  | cur, m :: ms =>
    if cur.a + cur.size = m.a ∧ cur.b + cur.size = m.b then
      mergeGo ⟨cur.a, cur.b, cur.size + m.size⟩ ms
    else
      cur :: mergeGo m ms

/-- Merge adjacent contiguous blocks of a block list. -/
def mergeBlocks : List Match → List Match
  | [] => []
  | m :: ms => mergeGo m ms

/-- Modelled from the spec: `getMatchingBlocks()` (spec.md §4.1) — all maximal
matching blocks in left-to-right order, adjacent contiguous blocks merged,
terminated by the sentinel `(len(A), len(B), 0)`. -/
def Engine.get_matching_blocks [DecidableEq α] (e : Engine α) : List Match :=
  mergeBlocks
    (matchingBlocksAux (effJunk e) e.a e.b (e.a.length + 1) 0 e.a.length 0
      e.b.length) ++ [⟨e.a.length, e.b.length, 0⟩]

/-- Walk the matching blocks and emit opcodes: between consecutive blocks a
`replace`, `delete` or `insert` for the gaps, and an `equal` for each
non-sentinel block (spec.md §4.1 `getOpcodes`). -/
def opcodesAux : Nat → Nat → List Match → List Opcode
  | _, _, [] => []
  | i, j, m :: ms =>
    (if i < m.a ∧ j < m.b then [⟨Tag.replace, i, m.a, j, m.b⟩]
     else if i < m.a then [⟨Tag.delete, i, m.a, j, m.b⟩]
     else if j < m.b then [⟨Tag.insert, i, m.a, j, m.b⟩]
     else []) ++
    (if 0 < m.size then [⟨Tag.equal, m.a, m.a + m.size, m.b, m.b + m.size⟩]
     else []) ++
    opcodesAux (m.a + m.size) (m.b + m.size) ms

/-- Modelled from the spec: `getOpcodes()` of spec.md §4.1. -/
def Engine.get_opcodes [DecidableEq α] (e : Engine α) : List Opcode :=
  opcodesAux 0 0 e.get_matching_blocks

/-- The half-open slice `l[x:y]` of a list. -/
def slice (l : List α) (x y : Nat) : List α :=
  (l.drop x).take (y - x)

/-- Concatenation, in order, of the `B`-slices `B[j1:j2]` named by a list of
opcodes (spec.md §8, first testable property). -/
def bSlices (b : List α) : List Opcode → List α
  | [] => []
  | op :: rest => slice b op.j1 op.j2 ++ bSlices b rest

/-- Apply one opcode's edit to the current working copy: `equal` is a no-op;
`replace`, `delete` and `insert` splice `B[j1:j2]` over the region of length
`i2 - i1` that begins at position `j1` of the working copy (the position the
region `A[i1:i2]` occupies once all earlier opcodes have been applied in
order). -/
def applyOpcode (b : List α) (s : List α) (op : Opcode) : List α :=
  match op.tag with
  | Tag.equal => s
  | _ => s.take op.j1 ++ slice b op.j1 op.j2 ++ s.drop (op.j1 + (op.i2 - op.i1))

/-- Apply every opcode's edit, in the order returned, to a copy of `a`. -/
def applyOpcodes (b a : List α) (ops : List Opcode) : List α :=
  ops.foldl (applyOpcode b) a

/-- The junk predicate of the source demo (`difflib_test.py` line 110):
treat spaces as junk. -/
def isSpace : Char → Bool := fun c => decide (c = ' ')

/-- Engine of the source's junk demo (`difflib_test.py` lines 97-112) with
the space-junk predicate. -/
def engineJunk : Engine Char :=
  SequenceDiffEngine.new (some isSpace) " abcd".toList "abcd abcd".toList

/-- Engine of the source's junk demo without a junk predicate
(`difflib_test.py` line 104). -/
def engineNoJunk : Engine Char :=
  SequenceDiffEngine.new none " abcd".toList "abcd abcd".toList

theorem matchAt_zero (a b : List α) (i j : Nat) : MatchAt a b i j 0 := by
  intro t ht
  omega

theorem matchAt_append {a b : List α} {i j k1 k2 : Nat}
    (h1 : MatchAt a b i j k1) (h2 : MatchAt a b (i + k1) (j + k1) k2) :
    MatchAt a b i j (k1 + k2) := by
  intro t ht
  by_cases hc : t < k1
  · exact h1 t hc
  · have h := h2 (t - k1) (by omega)
    have e1 : i + k1 + (t - k1) = i + t := by omega
    have e2 : j + k1 + (t - k1) = j + t := by omega
    rwa [e1, e2] at h

theorem matchRun_le [DecidableEq α] (junk : α → Bool) (a b : List α)
    (bhi : Nat) : ∀ fuel i j, matchRun junk a b bhi fuel i j ≤ fuel := by
  intro fuel
  induction fuel with
  | zero =>
    intro i j
    simp [matchRun]
  | succ n ih =>
    intro i j
    simp only [matchRun]
    split
    · have h := ih (i + 1) (j + 1)
      omega
    · omega

theorem matchRun_sound [DecidableEq α] (junk : α → Bool) (a b : List α)
    (bhi : Nat) : ∀ fuel i j t, t < matchRun junk a b bhi fuel i j →
      j + t < bhi ∧ EltEq a b (i + t) (j + t) ∧
        junkAt junk b (j + t) = false := by
  intro fuel
  induction fuel with
  | zero =>
    intro i j t ht
    simp [matchRun] at ht
  | succ n ih =>
    intro i j t ht
    simp only [matchRun] at ht
    split at ht
    · rename_i hcond
      match t with
      | 0 =>
        simpa using hcond
      | t' + 1 =>
        have h := ih (i + 1) (j + 1) t' (by omega)
        have e1 : i + 1 + t' = i + (t' + 1) := by omega
        have e2 : j + 1 + t' = j + (t' + 1) := by omega
        rwa [e1, e2] at h
    · omega

theorem matchRun_max [DecidableEq α] (junk : α → Bool) (a b : List α)
    (bhi : Nat) : ∀ fuel i j k, k ≤ fuel →
      (∀ t, t < k → j + t < bhi ∧ EltEq a b (i + t) (j + t) ∧
        junkAt junk b (j + t) = false) →
      k ≤ matchRun junk a b bhi fuel i j := by
  intro fuel
  induction fuel with
  | zero =>
    intro i j k hk _
    omega
  | succ n ih =>
    intro i j k hk hall
    match k with
    | 0 => omega
    | k' + 1 =>
      have h0 := hall 0 (by omega)
      simp only [add_zero] at h0
      have hrec := ih (i + 1) (j + 1) k' (by omega) (fun t ht => by
        have h := hall (t + 1) (by omega)
        have e1 : i + (t + 1) = i + 1 + t := by omega
        have e2 : j + (t + 1) = j + 1 + t := by omega
        rwa [e1, e2] at h)
      simp only [matchRun]
      split
      · omega
      · rename_i hcond
        exact absurd h0 hcond

theorem extLeft_le [DecidableEq α] (a b : List α) (alo blo : Nat) :
    ∀ i j, extLeft a b alo blo i j ≤ i ∧ extLeft a b alo blo i j ≤ j ∧
      (0 < extLeft a b alo blo i j →
        alo + extLeft a b alo blo i j ≤ i ∧
        blo + extLeft a b alo blo i j ≤ j) := by
  intro i
  induction i with
  | zero =>
    intro j
    simp [extLeft]
  | succ i ih =>
    intro j
    match j with
    | 0 => simp [extLeft]
    | j + 1 =>
      simp only [extLeft]
      split
      · rename_i hcond
        have h := ih j
        omega
      · omega

theorem extLeft_matchAt [DecidableEq α] (a b : List α) (alo blo : Nat) :
    ∀ i j, MatchAt a b (i - extLeft a b alo blo i j)
      (j - extLeft a b alo blo i j) (extLeft a b alo blo i j) := by
  intro i
  induction i with
  | zero =>
    intro j
    simp only [extLeft]
    exact matchAt_zero a b _ _
  | succ i ih =>
    intro j
    match j with
    | 0 =>
      simp only [extLeft]
      exact matchAt_zero a b _ _
    | j + 1 =>
      simp only [extLeft]
      split
      · rename_i hcond
        have hle := extLeft_le a b alo blo i j
        have h := ih j
        intro t ht
        by_cases hc : t < extLeft a b alo blo i j
        · have := h t hc
          have e1 : i + 1 - (extLeft a b alo blo i j + 1) + t =
              i - extLeft a b alo blo i j + t := by omega
          have e2 : j + 1 - (extLeft a b alo blo i j + 1) + t =
              j - extLeft a b alo blo i j + t := by omega
          rwa [e1, e2]
        · have hteq : t = extLeft a b alo blo i j := by omega
          have e1 : i + 1 - (extLeft a b alo blo i j + 1) + t = i := by omega
          have e2 : j + 1 - (extLeft a b alo blo i j + 1) + t = j := by omega
          rw [e1, e2]
          exact hcond.2.2
      · intro t ht
        omega

theorem extLeft_pos [DecidableEq α] (a b : List α) (alo blo : Nat) (i j : Nat)
    (h : 0 < extLeft a b alo blo i j) :
    1 ≤ i ∧ 1 ≤ j ∧ alo ≤ i - 1 ∧ blo ≤ j - 1 ∧ EltEq a b (i - 1) (j - 1) := by
  match i, j with
  | 0, _ => simp [extLeft] at h
  | i + 1, 0 => simp [extLeft] at h
  | i + 1, j + 1 =>
    simp only [extLeft] at h
    split at h
    · rename_i hcond
      simpa using ⟨hcond.1, hcond.2.1, hcond.2.2⟩
    · omega

theorem extRight_le [DecidableEq α] (a b : List α) (bhi : Nat) :
    ∀ fuel i j, extRight a b bhi fuel i j ≤ fuel := by
  intro fuel
  induction fuel with
  | zero =>
    intro i j
    simp [extRight]
  | succ n ih =>
    intro i j
    simp only [extRight]
    split
    · have h := ih (i + 1) (j + 1)
      omega
    · omega

theorem extRight_sound [DecidableEq α] (a b : List α) (bhi : Nat) :
    ∀ fuel i j t, t < extRight a b bhi fuel i j →
      j + t < bhi ∧ EltEq a b (i + t) (j + t) := by
  intro fuel
  induction fuel with
  | zero =>
    intro i j t ht
    simp [extRight] at ht
  | succ n ih =>
    intro i j t ht
    simp only [extRight] at ht
    split at ht
    · rename_i hcond
      match t with
      | 0 => simpa using ⟨hcond.1, hcond.2⟩
      | t' + 1 =>
        have h := ih (i + 1) (j + 1) t' (by omega)
        have e1 : i + 1 + t' = i + (t' + 1) := by omega
        have e2 : j + 1 + t' = j + (t' + 1) := by omega
        rwa [e1, e2] at h
    · omega

theorem better_trans {m1 m2 m3 : Match} (h1 : Better m1 m2)
    (h2 : Better m2 m3) : Better m1 m3 := by
  unfold Better at h1 h2 ⊢
  omega

theorem better_irrefl (m : Match) : ¬ Better m m := by
  unfold Better
  omega

theorem foldl_pickBetter (cs : List Match) :
    ∀ init : Match,
      (cs.foldl pickBetter init = init ∨ cs.foldl pickBetter init ∈ cs) ∧
      (cs.foldl pickBetter init = init ∨
        Better (cs.foldl pickBetter init) init) ∧
      (∀ c ∈ cs, ¬ Better c (cs.foldl pickBetter init)) := by
  induction cs with
  | nil =>
    intro init
    refine ⟨Or.inl rfl, Or.inl rfl, ?_⟩
    intro c hc
    cases hc
  | cons c cs ih =>
    intro init
    simp only [List.foldl_cons]
    obtain ⟨hmem, hchain, hmin⟩ := ih (pickBetter init c)
    have hcases : pickBetter init c = c ∧ Better c init ∨
        pickBetter init c = init ∧ ¬ Better c init := by
      unfold pickBetter
      split
      · exact Or.inl ⟨rfl, by assumption⟩
      · exact Or.inr ⟨rfl, by assumption⟩
    refine ⟨?_, ?_, ?_⟩
    · rcases hmem with h | h
      · rcases hcases with ⟨he, _⟩ | ⟨he, _⟩
        · exact Or.inr (by rw [h, he]; exact List.mem_cons_self c cs)
        · exact Or.inl (by rw [h, he])
      · exact Or.inr (List.mem_cons_of_mem c h)
    · rcases hcases with ⟨he, hb⟩ | ⟨he, hb⟩
      · rcases hchain with h | h
        · exact Or.inr (by rw [h, he]; exact hb)
        · exact Or.inr (better_trans h (by rw [he]; exact hb))
      · rw [he] at hmem hchain hmin ⊢
        exact hchain
    · intro d hd
      rcases List.mem_cons.mp hd with hdc | hdcs
      · subst hdc
        intro hcon
        rcases hcases with ⟨he, hb⟩ | ⟨he, hb⟩
        · rw [he] at hchain hcon
          rcases hchain with h | h
          · rw [h] at hcon
            exact better_irrefl d hcon
          · exact better_irrefl d (better_trans hcon h)
        · rw [he] at hchain hcon
          rcases hchain with h | h
          · rw [h] at hcon
            exact hb hcon
          · exact hb (better_trans hcon h)
      · exact hmin d hdcs

theorem mem_candidates [DecidableEq α] {junk : α → Bool} {a b : List α}
    {alo ahi blo bhi : Nat} {m : Match}
    (h : m ∈ candidates junk a b alo ahi blo bhi) :
    ∃ i j, alo ≤ i ∧ i < ahi ∧ blo ≤ j ∧ j < bhi ∧
      m = ⟨i, j, matchLen junk a b ahi bhi i j⟩ := by
  unfold candidates at h
  rw [List.mem_flatMap] at h
  obtain ⟨di, hdi, h⟩ := h
  rw [List.mem_map] at h
  obtain ⟨dj, hdj, h⟩ := h
  rw [List.mem_range] at hdi
  rw [List.mem_range] at hdj
  exact ⟨alo + di, blo + dj, by omega, by omega, by omega, by omega, h.symm⟩

theorem candidates_mem [DecidableEq α] (junk : α → Bool) (a b : List α)
    (alo ahi blo bhi i j : Nat) (h1 : alo ≤ i) (h2 : i < ahi) (h3 : blo ≤ j)
    (h4 : j < bhi) :
    (⟨i, j, matchLen junk a b ahi bhi i j⟩ : Match) ∈
      candidates junk a b alo ahi blo bhi := by
  unfold candidates
  rw [List.mem_flatMap]
  refine ⟨i - alo, by rw [List.mem_range]; omega, ?_⟩
  rw [List.mem_map]
  refine ⟨j - blo, by rw [List.mem_range]; omega, ?_⟩
  have e1 : alo + (i - alo) = i := by omega
  have e2 : blo + (j - blo) = j := by omega
  rw [e1, e2]

theorem bestMatch_cases [DecidableEq α] (junk : α → Bool) (a b : List α)
    (alo ahi blo bhi : Nat) :
    bestMatch junk a b alo ahi blo bhi = ⟨alo, blo, 0⟩ ∨
      ∃ i j, alo ≤ i ∧ i < ahi ∧ blo ≤ j ∧ j < bhi ∧
        bestMatch junk a b alo ahi blo bhi =
          ⟨i, j, matchLen junk a b ahi bhi i j⟩ := by
  have h := (foldl_pickBetter (candidates junk a b alo ahi blo bhi)
    ⟨alo, blo, 0⟩).1
  rcases h with h | h
  · exact Or.inl h
  · exact Or.inr (mem_candidates h)

theorem bestMatch_chain [DecidableEq α] (junk : α → Bool) (a b : List α)
    (alo ahi blo bhi : Nat) :
    bestMatch junk a b alo ahi blo bhi = ⟨alo, blo, 0⟩ ∨
      Better (bestMatch junk a b alo ahi blo bhi) ⟨alo, blo, 0⟩ :=
  (foldl_pickBetter (candidates junk a b alo ahi blo bhi) ⟨alo, blo, 0⟩).2.1

theorem bestMatch_min [DecidableEq α] (junk : α → Bool) (a b : List α)
    (alo ahi blo bhi i j : Nat) (h1 : alo ≤ i) (h2 : i < ahi) (h3 : blo ≤ j)
    (h4 : j < bhi) :
    ¬ Better ⟨i, j, matchLen junk a b ahi bhi i j⟩
      (bestMatch junk a b alo ahi blo bhi) :=
  (foldl_pickBetter (candidates junk a b alo ahi blo bhi) ⟨alo, blo, 0⟩).2.2 _
    (candidates_mem junk a b alo ahi blo bhi i j h1 h2 h3 h4)

theorem bestMatch_sound [DecidableEq α] (junk : α → Bool) (a b : List α)
    (alo ahi blo bhi t : Nat)
    (ht : t < (bestMatch junk a b alo ahi blo bhi).size) :
    (bestMatch junk a b alo ahi blo bhi).b + t < bhi ∧
      EltEq a b ((bestMatch junk a b alo ahi blo bhi).a + t)
        ((bestMatch junk a b alo ahi blo bhi).b + t) ∧
      junkAt junk b ((bestMatch junk a b alo ahi blo bhi).b + t) = false := by
  rcases bestMatch_cases junk a b alo ahi blo bhi with h | ⟨i, j, _, _, _, _, h⟩
  · rw [h] at ht
    simp at ht
  · rw [h] at ht ⊢
    simp only [matchLen] at ht ⊢
    exact matchRun_sound junk a b bhi (ahi - i) i j t ht

theorem bestMatch_matchAt [DecidableEq α] (junk : α → Bool) (a b : List α)
    (alo ahi blo bhi : Nat) :
    MatchAt a b (bestMatch junk a b alo ahi blo bhi).a
      (bestMatch junk a b alo ahi blo bhi).b
      (bestMatch junk a b alo ahi blo bhi).size := by
  intro t ht
  exact (bestMatch_sound junk a b alo ahi blo bhi t ht).2.1

theorem bestMatch_bounds [DecidableEq α] (junk : α → Bool) (a b : List α)
    (alo ahi blo bhi : Nat) (hab : alo ≤ ahi) (hbb : blo ≤ bhi) :
    alo ≤ (bestMatch junk a b alo ahi blo bhi).a ∧
      (bestMatch junk a b alo ahi blo bhi).a +
        (bestMatch junk a b alo ahi blo bhi).size ≤ ahi ∧
      blo ≤ (bestMatch junk a b alo ahi blo bhi).b ∧
      (bestMatch junk a b alo ahi blo bhi).b +
        (bestMatch junk a b alo ahi blo bhi).size ≤ bhi := by
  rcases bestMatch_cases junk a b alo ahi blo bhi with h | ⟨i, j, h1, h2, h3, h4, h⟩
  · rw [h]
    simpa using ⟨hab, hbb⟩
  · have hbside : (bestMatch junk a b alo ahi blo bhi).b +
        (bestMatch junk a b alo ahi blo bhi).size ≤ bhi := by
      by_cases hz : (bestMatch junk a b alo ahi blo bhi).size = 0
      · rw [h] at hz ⊢
        simp only at hz ⊢
        omega
      · have hs := bestMatch_sound junk a b alo ahi blo bhi
          ((bestMatch junk a b alo ahi blo bhi).size - 1) (by omega)
        omega
    rw [h] at hbside ⊢
    simp only at hbside ⊢
    have hle : matchLen junk a b ahi bhi i j ≤ ahi - i := by
      simp only [matchLen]
      exact matchRun_le junk a b bhi (ahi - i) i j
    exact ⟨h1, by omega, h3, hbside⟩

theorem flmCore_eq [DecidableEq α] (junk : α → Bool) (a b : List α)
    (alo ahi blo bhi : Nat) :
    flmCore junk a b alo ahi blo bhi =
      ⟨(bestMatch junk a b alo ahi blo bhi).a -
          extLeft a b alo blo (bestMatch junk a b alo ahi blo bhi).a
            (bestMatch junk a b alo ahi blo bhi).b,
        (bestMatch junk a b alo ahi blo bhi).b -
          extLeft a b alo blo (bestMatch junk a b alo ahi blo bhi).a
            (bestMatch junk a b alo ahi blo bhi).b,
        (bestMatch junk a b alo ahi blo bhi).size +
          extLeft a b alo blo (bestMatch junk a b alo ahi blo bhi).a
            (bestMatch junk a b alo ahi blo bhi).b +
          extRight a b bhi
            (ahi - ((bestMatch junk a b alo ahi blo bhi).a +
              (bestMatch junk a b alo ahi blo bhi).size))
            ((bestMatch junk a b alo ahi blo bhi).a +
              (bestMatch junk a b alo ahi blo bhi).size)
            ((bestMatch junk a b alo ahi blo bhi).b +
              (bestMatch junk a b alo ahi blo bhi).size)⟩ := rfl

theorem flmCore_matchAt [DecidableEq α] (junk : α → Bool) (a b : List α)
    (alo ahi blo bhi : Nat) :
    MatchAt a b (flmCore junk a b alo ahi blo bhi).a
      (flmCore junk a b alo ahi blo bhi).b
      (flmCore junk a b alo ahi blo bhi).size := by
  rw [flmCore_eq]
  have hB := bestMatch_matchAt junk a b alo ahi blo bhi
  set B := bestMatch junk a b alo ahi blo bhi with hBdef
  set L := extLeft a b alo blo B.a B.b with hLdef
  set R := extRight a b bhi (ahi - (B.a + B.size)) (B.a + B.size)
    (B.b + B.size) with hRdef
  have hLle := extLeft_le a b alo blo B.a B.b
  rw [← hLdef] at hLle
  have step1 : MatchAt a b (B.a - L) (B.b - L) L := by
    have h := extLeft_matchAt a b alo blo B.a B.b
    rwa [← hLdef] at h
  have step2 : MatchAt a b (B.a - L + L) (B.b - L + L) B.size := by
    have e1 : B.a - L + L = B.a := by omega
    have e2 : B.b - L + L = B.b := by omega
    rw [e1, e2]
    exact hB
  have m12 : MatchAt a b (B.a - L) (B.b - L) (L + B.size) :=
    matchAt_append step1 step2
  have step3 : MatchAt a b (B.a - L + (L + B.size)) (B.b - L + (L + B.size)) R := by
    have e1 : B.a - L + (L + B.size) = B.a + B.size := by omega
    have e2 : B.b - L + (L + B.size) = B.b + B.size := by omega
    rw [e1, e2]
    intro t ht
    exact (extRight_sound a b bhi (ahi - (B.a + B.size)) (B.a + B.size)
      (B.b + B.size) t ht).2
  have m123 : MatchAt a b (B.a - L) (B.b - L) (L + B.size + R) :=
    matchAt_append m12 step3
  have e : B.size + L + R = L + B.size + R := by omega
  simp only
  rw [e]
  exact m123

theorem flmCore_bounds [DecidableEq α] (junk : α → Bool) (a b : List α)
    (alo ahi blo bhi : Nat) (hab : alo ≤ ahi) (hbb : blo ≤ bhi) :
    alo ≤ (flmCore junk a b alo ahi blo bhi).a ∧
      (flmCore junk a b alo ahi blo bhi).a +
        (flmCore junk a b alo ahi blo bhi).size ≤ ahi ∧
      blo ≤ (flmCore junk a b alo ahi blo bhi).b ∧
      (flmCore junk a b alo ahi blo bhi).b +
        (flmCore junk a b alo ahi blo bhi).size ≤ bhi := by
  rw [flmCore_eq]
  have hBb := bestMatch_bounds junk a b alo ahi blo bhi hab hbb
  set B := bestMatch junk a b alo ahi blo bhi with hBdef
  set L := extLeft a b alo blo B.a B.b with hLdef
  set R := extRight a b bhi (ahi - (B.a + B.size)) (B.a + B.size)
    (B.b + B.size) with hRdef
  have hLle := extLeft_le a b alo blo B.a B.b
  rw [← hLdef] at hLle
  have hRle : R ≤ ahi - (B.a + B.size) := by
    rw [hRdef]
    exact extRight_le a b bhi _ _ _
  have hRb : B.b + B.size + R ≤ bhi := by
    by_cases hz : R = 0
    · omega
    · have hs := extRight_sound a b bhi (ahi - (B.a + B.size)) (B.a + B.size)
        (B.b + B.size) (R - 1) (by rw [hRdef] at hz ⊢; omega)
      omega
  simp only
  omega

/-- A plain contiguous match of size `k` at `(i, j)` lying within the given
half-open ranges (the notion quantified over by spec.md §4.1's maximality
guarantee). -/
def IsMatchWithin (a b : List α) (alo ahi blo bhi i j k : Nat) : Prop :=
  alo ≤ i ∧ i + k ≤ ahi ∧ blo ≤ j ∧ j + k ≤ bhi ∧ MatchAt a b i j k

instance instDecIsMatchWithin [DecidableEq α] (a b : List α)
    (alo ahi blo bhi i j k : Nat) :
    Decidable (IsMatchWithin a b alo ahi blo bhi i j k) := by
  unfold IsMatchWithin
  infer_instance

theorem better_mk_intro {x y z : Nat} {m : Match}
    (h : m.size < z ∨ (z = m.size ∧ (x < m.a ∨ (x = m.a ∧ y < m.b)))) :
    Better ⟨x, y, z⟩ m := h

theorem better_mk_elim {m : Match} {x y z : Nat} (h : Better m ⟨x, y, z⟩) :
    z < m.size ∨ (m.size = z ∧ (m.a < x ∨ (m.a = x ∧ m.b < y))) := h

theorem bestMatch_size_zero [DecidableEq α] (junk : α → Bool) (a b : List α)
    (alo ahi blo bhi : Nat) (hab : alo ≤ ahi) (hbb : blo ≤ bhi)
    (hz : (bestMatch junk a b alo ahi blo bhi).size = 0) :
    bestMatch junk a b alo ahi blo bhi = ⟨alo, blo, 0⟩ := by
  rcases bestMatch_chain junk a b alo ahi blo bhi with h | h
  · exact h
  · exfalso
    have hBb := bestMatch_bounds junk a b alo ahi blo bhi hab hbb
    have h' := better_mk_elim h
    omega

theorem matchLen_ge [DecidableEq α] (junk : α → Bool) (a b : List α)
    (ahi bhi i j k : Nat) (hk1 : i + k ≤ ahi) (hk2 : j + k ≤ bhi)
    (hM : MatchAt a b i j k) (hnj : ∀ t, junkAt junk b t = false) :
    k ≤ matchLen junk a b ahi bhi i j := by
  simp only [matchLen]
  apply matchRun_max junk a b bhi (ahi - i) i j k (by omega)
  intro t ht
  exact ⟨by omega, hM t ht, hnj _⟩

theorem flmCore_optimal [DecidableEq α] (junk : α → Bool) (a b : List α)
    (alo ahi blo bhi : Nat) (hab : alo ≤ ahi) (hbb : blo ≤ bhi)
    (hnj : ∀ t, junkAt junk b t = false) :
    IsMatchWithin a b alo ahi blo bhi (flmCore junk a b alo ahi blo bhi).a
      (flmCore junk a b alo ahi blo bhi).b
      (flmCore junk a b alo ahi blo bhi).size ∧
    (∀ i j k, IsMatchWithin a b alo ahi blo bhi i j k →
      k ≤ (flmCore junk a b alo ahi blo bhi).size) ∧
    (∀ i j k, IsMatchWithin a b alo ahi blo bhi i j k →
      k = (flmCore junk a b alo ahi blo bhi).size →
      (flmCore junk a b alo ahi blo bhi).a ≤ i) ∧
    (∀ i j k, IsMatchWithin a b alo ahi blo bhi i j k →
      k = (flmCore junk a b alo ahi blo bhi).size →
      i = (flmCore junk a b alo ahi blo bhi).a →
      (flmCore junk a b alo ahi blo bhi).b ≤ j) := by
  have hBb := bestMatch_bounds junk a b alo ahi blo bhi hab hbb
  set B := bestMatch junk a b alo ahi blo bhi with hBdef
  have hL : extLeft a b alo blo B.a B.b = 0 := by
    by_contra hc
    have hpos : 0 < extLeft a b alo blo B.a B.b := Nat.pos_of_ne_zero hc
    obtain ⟨hi1, hj1, hal, hbl2, hE⟩ := extLeft_pos a b alo blo B.a B.b hpos
    have hML : B.size + 1 ≤ matchLen junk a b ahi bhi (B.a - 1) (B.b - 1) := by
      simp only [matchLen]
      apply matchRun_max junk a b bhi (ahi - (B.a - 1)) (B.a - 1) (B.b - 1)
        (B.size + 1) (by omega)
      intro t ht
      match t with
      | 0 =>
        refine ⟨by omega, ?_, hnj _⟩
        simpa using hE
      | t' + 1 =>
        have hs := bestMatch_sound junk a b alo ahi blo bhi t'
          (by rw [← hBdef]; omega)
        rw [← hBdef] at hs
        have e1 : B.a - 1 + (t' + 1) = B.a + t' := by omega
        have e2 : B.b - 1 + (t' + 1) = B.b + t' := by omega
        rw [e1, e2]
        exact ⟨by omega, hs.2.1, hs.2.2⟩
    have hmin := bestMatch_min junk a b alo ahi blo bhi (B.a - 1) (B.b - 1)
      hal (by omega) hbl2 (by omega)
    rw [← hBdef] at hmin
    exact hmin (better_mk_intro (Or.inl (by omega)))
  have hR : extRight a b bhi (ahi - (B.a + B.size)) (B.a + B.size)
      (B.b + B.size) = 0 := by
    by_contra hc
    have hpos : 0 < extRight a b bhi (ahi - (B.a + B.size)) (B.a + B.size)
        (B.b + B.size) := Nat.pos_of_ne_zero hc
    have h0 := extRight_sound a b bhi (ahi - (B.a + B.size)) (B.a + B.size)
      (B.b + B.size) 0 hpos
    have hfuel : 0 < ahi - (B.a + B.size) := by
      have hle := extRight_le a b bhi (ahi - (B.a + B.size)) (B.a + B.size)
        (B.b + B.size)
      omega
    have hb0 := h0.1
    have hML : B.size + 1 ≤ matchLen junk a b ahi bhi B.a B.b := by
      simp only [matchLen]
      apply matchRun_max junk a b bhi (ahi - B.a) B.a B.b (B.size + 1)
        (by omega)
      intro t ht
      by_cases htlt : t < B.size
      · have hs := bestMatch_sound junk a b alo ahi blo bhi t htlt
        rw [← hBdef] at hs
        exact ⟨by omega, hs.2.1, hs.2.2⟩
      · have hteq : t = B.size := by omega
        subst hteq
        refine ⟨by omega, ?_, hnj _⟩
        simpa using h0.2
    have hmin := bestMatch_min junk a b alo ahi blo bhi B.a B.b (by omega)
      (by omega) (by omega) (by omega)
    rw [← hBdef] at hmin
    exact hmin (better_mk_intro (Or.inl (by omega)))
  have hflm : flmCore junk a b alo ahi blo bhi = ⟨B.a, B.b, B.size⟩ := by
    rw [flmCore_eq, ← hBdef, hL, hR]
    simp
  have hBM : MatchAt a b B.a B.b B.size := by
    have h := bestMatch_matchAt junk a b alo ahi blo bhi
    rwa [← hBdef] at h
  have hc1 : IsMatchWithin a b alo ahi blo bhi B.a B.b B.size :=
    ⟨hBb.1, hBb.2.1, hBb.2.2.1, hBb.2.2.2, hBM⟩
  have hc2 : ∀ i j k, IsMatchWithin a b alo ahi blo bhi i j k →
      k ≤ B.size := by
    intro i j k hm
    obtain ⟨h1, h2, h3, h4, hM⟩ := hm
    by_cases hk : k = 0
    · omega
    · have hML := matchLen_ge junk a b ahi bhi i j k h2 h4 hM hnj
      have hmin := bestMatch_min junk a b alo ahi blo bhi i j h1 (by omega)
        h3 (by omega)
      rw [← hBdef] at hmin
      have hns : ¬ B.size < matchLen junk a b ahi bhi i j := fun hlt =>
        hmin (better_mk_intro (Or.inl hlt))
      omega
  have hc3 : ∀ i j k, IsMatchWithin a b alo ahi blo bhi i j k →
      k = B.size → B.a ≤ i := by
    intro i j k hm hk
    obtain ⟨h1, h2, h3, h4, hM⟩ := hm
    by_cases hkz : k = 0
    · have hBz : B = ⟨alo, blo, 0⟩ := by
        rw [hBdef]
        exact bestMatch_size_zero junk a b alo ahi blo bhi hab hbb
          (by rw [← hBdef]; omega)
      rw [hBz]
      exact h1
    · have hML := matchLen_ge junk a b ahi bhi i j k h2 h4 hM hnj
      have hle := hc2 i j k ⟨h1, h2, h3, h4, hM⟩
      have hmin := bestMatch_min junk a b alo ahi blo bhi i j h1 (by omega)
        h3 (by omega)
      rw [← hBdef] at hmin
      have hns : ¬ B.size < matchLen junk a b ahi bhi i j := fun hlt =>
        hmin (better_mk_intro (Or.inl hlt))
      by_contra hcon
      exact hmin (better_mk_intro (Or.inr ⟨by omega, Or.inl (by omega)⟩))
  have hc4 : ∀ i j k, IsMatchWithin a b alo ahi blo bhi i j k →
      k = B.size → i = B.a → B.b ≤ j := by
    intro i j k hm hk hi
    obtain ⟨h1, h2, h3, h4, hM⟩ := hm
    by_cases hkz : k = 0
    · have hBz : B = ⟨alo, blo, 0⟩ := by
        rw [hBdef]
        exact bestMatch_size_zero junk a b alo ahi blo bhi hab hbb
          (by rw [← hBdef]; omega)
      rw [hBz]
      exact h3
    · have hML := matchLen_ge junk a b ahi bhi i j k h2 h4 hM hnj
      have hle := hc2 i j k ⟨h1, h2, h3, h4, hM⟩
      have hmin := bestMatch_min junk a b alo ahi blo bhi i j h1 (by omega)
        h3 (by omega)
      rw [← hBdef] at hmin
      have hns : ¬ B.size < matchLen junk a b ahi bhi i j := fun hlt =>
        hmin (better_mk_intro (Or.inl hlt))
      by_contra hcon
      exact hmin (better_mk_intro (Or.inr ⟨by omega, Or.inr ⟨by omega, by omega⟩⟩))
  rw [hflm]
  exact ⟨hc1, hc2, hc3, hc4⟩

/-- The blocks of a list form a monotone chain starting at `(i, j)`: each
block starts no earlier than the current position, genuinely matches, stays
inside both sequences, and advances the position to its end. -/
def Cov (a b : List α) : Nat → Nat → List Match → Prop
  | _, _, [] => True
  | i, j, m :: ms =>
    i ≤ m.a ∧ j ≤ m.b ∧ m.a + m.size ≤ a.length ∧ m.b + m.size ≤ b.length ∧
      MatchAt a b m.a m.b m.size ∧ Cov a b (m.a + m.size) (m.b + m.size) ms

/-- End position in `A` after walking a block list from position `i`. -/
def endA : Nat → List Match → Nat
  | i, [] => i
  | _, m :: ms => endA (m.a + m.size) ms

/-- End position in `B` after walking a block list from position `j`. -/
def endB : Nat → List Match → Nat
  | j, [] => j
  | _, m :: ms => endB (m.b + m.size) ms

theorem endA_append (i : Nat) (xs ys : List Match) :
    endA i (xs ++ ys) = endA (endA i xs) ys := by
  induction xs generalizing i with
  | nil => rfl
  | cons m ms ih =>
    simp only [List.cons_append, endA]
    exact ih _

theorem endB_append (j : Nat) (xs ys : List Match) :
    endB j (xs ++ ys) = endB (endB j xs) ys := by
  induction xs generalizing j with
  | nil => rfl
  | cons m ms ih =>
    simp only [List.cons_append, endB]
    exact ih _

theorem cov_le_end {a b : List α} : ∀ {xs : List Match} {i j : Nat},
    Cov a b i j xs → i ≤ endA i xs ∧ j ≤ endB j xs := by
  intro xs
  induction xs with
  | nil =>
    intro i j _
    simp [endA, endB]
  | cons m ms ih =>
    intro i j h
    simp only [Cov] at h
    obtain ⟨h1, h2, _, _, _, h6⟩ := h
    have hr := ih h6
    simp only [endA, endB]
    omega

theorem cov_append {a b : List α} : ∀ {xs ys : List Match} {i j : Nat},
    Cov a b i j xs → Cov a b (endA i xs) (endB j xs) ys →
    Cov a b i j (xs ++ ys) := by
  intro xs
  induction xs with
  | nil =>
    intro ys i j _ h2
    simpa [endA, endB] using h2
  | cons m ms ih =>
    intro ys i j h1 h2
    simp only [Cov] at h1
    obtain ⟨g1, g2, g3, g4, g5, g6⟩ := h1
    simp only [List.cons_append, Cov]
    refine ⟨g1, g2, g3, g4, g5, ?_⟩
    exact ih g6 (by simpa [endA, endB] using h2)

theorem cov_mem {a b : List α} : ∀ {xs : List Match} {i j : Nat},
    Cov a b i j xs → ∀ m ∈ xs, i ≤ m.a ∧ j ≤ m.b ∧
      m.a + m.size ≤ endA i xs ∧ m.b + m.size ≤ endB j xs := by
  intro xs
  induction xs with
  | nil =>
    intro i j _ m hm
    cases hm
  | cons m0 ms ih =>
    intro i j h m hm
    simp only [Cov] at h
    obtain ⟨h1, h2, _, _, _, h6⟩ := h
    have hend := cov_le_end h6
    rcases List.mem_cons.mp hm with he | hm'
    · subst he
      simp only [endA, endB]
      omega
    · have hr := ih h6 m hm'
      simp only [endA, endB]
      omega

theorem cov_pairwise {a b : List α} : ∀ {xs : List Match} {i j : Nat},
    Cov a b i j xs → (∀ m ∈ xs, 0 < m.size) →
    List.Pairwise (fun m m' : Match => m.a < m'.a ∧ m.b < m'.b) xs := by
  intro xs
  induction xs with
  | nil =>
    intro i j _ _
    exact List.Pairwise.nil
  | cons m ms ih =>
    intro i j h hpos
    simp only [Cov] at h
    obtain ⟨_, _, _, _, _, h6⟩ := h
    refine List.Pairwise.cons ?_
      (ih h6 (fun m' hm' => hpos m' (List.mem_cons_of_mem m hm')))
    intro m' hm'
    have hmem := cov_mem h6 m' hm'
    have hp := hpos m (List.mem_cons_self m ms)
    exact ⟨by omega, by omega⟩

theorem matchingBlocksAux_cov [DecidableEq α] (junk : α → Bool) (a b : List α) :
    ∀ fuel alo ahi blo bhi, alo ≤ ahi → blo ≤ bhi → ahi ≤ a.length →
      bhi ≤ b.length →
      Cov a b alo blo (matchingBlocksAux junk a b fuel alo ahi blo bhi) ∧
      endA alo (matchingBlocksAux junk a b fuel alo ahi blo bhi) ≤ ahi ∧
      endB blo (matchingBlocksAux junk a b fuel alo ahi blo bhi) ≤ bhi := by
  intro fuel
  induction fuel with
  | zero =>
    intro alo ahi blo bhi hab hbb _ _
    simp only [matchingBlocksAux, endA, endB]
    exact ⟨trivial, hab, hbb⟩
  | succ n ih =>
    intro alo ahi blo bhi hab hbb hal hbl
    have hM := flmCore_matchAt junk a b alo ahi blo bhi
    simp only [matchingBlocksAux]
    set m := flmCore junk a b alo ahi blo bhi with hmdef
    split
    · rename_i hguard
      obtain ⟨hg0, hg1, hg2, hg3, hg4⟩ := hguard
      have ihL := ih alo m.a blo m.b (by omega) (by omega) (by omega) (by omega)
      have ihR := ih (m.a + m.size) ahi (m.b + m.size) bhi hg2 hg4 hal hbl
      refine ⟨?_, ?_, ?_⟩
      · apply cov_append ihL.1
        simp only [Cov]
        refine ⟨by omega, by omega, by omega, by omega, hM, ihR.1⟩
      · rw [endA_append]
        simp only [endA]
        exact ihR.2.1
      · rw [endB_append]
        simp only [endB]
        exact ihR.2.2
    · simp only [endA, endB]
      exact ⟨trivial, hab, hbb⟩

theorem matchingBlocksAux_pos [DecidableEq α] (junk : α → Bool) (a b : List α) :
    ∀ fuel alo ahi blo bhi m,
      m ∈ matchingBlocksAux junk a b fuel alo ahi blo bhi → 0 < m.size := by
  intro fuel
  induction fuel with
  | zero =>
    intro alo ahi blo bhi m hm
    simp [matchingBlocksAux] at hm
  | succ n ih =>
    intro alo ahi blo bhi m hm
    simp only [matchingBlocksAux] at hm
    split at hm
    · rename_i hguard
      rw [List.mem_append] at hm
      rcases hm with hm | hm
      · exact ih _ _ _ _ _ hm
      · rcases List.mem_cons.mp hm with he | hm'
        · subst he
          exact hguard.1
        · exact ih _ _ _ _ _ hm'
    · cases hm

theorem mergeGo_endA : ∀ (ms : List Match) (cur : Match) (i : Nat),
    endA i (mergeGo cur ms) = endA (cur.a + cur.size) ms := by
  intro ms
  induction ms with
  | nil =>
    intro cur i
    simp [mergeGo, endA]
  | cons m ms ih =>
    intro cur i
    simp only [mergeGo]
    split
    · rename_i hadj
      rw [ih]
      simp only [endA]
      have e : cur.a + (cur.size + m.size) = m.a + m.size := by
        omega
      rw [e]
    · simp only [endA]
      rw [ih]

theorem mergeGo_endB : ∀ (ms : List Match) (cur : Match) (j : Nat),
    endB j (mergeGo cur ms) = endB (cur.b + cur.size) ms := by
  intro ms
  induction ms with
  | nil =>
    intro cur j
    simp [mergeGo, endB]
  | cons m ms ih =>
    intro cur j
    simp only [mergeGo]
    split
    · rename_i hadj
      rw [ih]
      simp only [endB]
      have e : cur.b + (cur.size + m.size) = m.b + m.size := by
        omega
      rw [e]
    · simp only [endB]
      rw [ih]

theorem mergeGo_cov {a b : List α} : ∀ (ms : List Match) (cur : Match)
    (i j : Nat), i ≤ cur.a → j ≤ cur.b → cur.a + cur.size ≤ a.length →
    cur.b + cur.size ≤ b.length → MatchAt a b cur.a cur.b cur.size →
    Cov a b (cur.a + cur.size) (cur.b + cur.size) ms →
    Cov a b i j (mergeGo cur ms) := by
  intro ms
  induction ms with
  | nil =>
    intro cur i j h1 h2 h3 h4 h5 _
    simp only [mergeGo, Cov]
    exact ⟨h1, h2, h3, h4, h5, trivial⟩
  | cons m ms ih =>
    intro cur i j h1 h2 h3 h4 h5 hcov
    simp only [Cov] at hcov
    obtain ⟨g1, g2, g3, g4, g5, g6⟩ := hcov
    simp only [mergeGo]
    split
    · rename_i hadj
      apply ih ⟨cur.a, cur.b, cur.size + m.size⟩ i j
      · simpa using h1
      · simpa using h2
      · simp only
        omega
      · simp only
        omega
      · simp only
        apply matchAt_append h5
        have e1 : cur.a + cur.size = m.a := hadj.1
        have e2 : cur.b + cur.size = m.b := hadj.2
        rw [e1, e2]
        exact g5
      · simp only
        have e1 : cur.a + (cur.size + m.size) = m.a + m.size := by omega
        have e2 : cur.b + (cur.size + m.size) = m.b + m.size := by omega
        rw [e1, e2]
        exact g6
    · simp only [Cov]
      refine ⟨h1, h2, h3, h4, h5, ?_⟩
      exact ih m (cur.a + cur.size) (cur.b + cur.size) g1 g2 g3 g4 g5 g6

theorem mergeGo_pos : ∀ (ms : List Match) (cur : Match), 0 < cur.size →
    (∀ m ∈ ms, 0 < m.size) → ∀ m' ∈ mergeGo cur ms, 0 < m'.size := by
  intro ms
  induction ms with
  | nil =>
    intro cur hcur _ m' hm'
    simp only [mergeGo] at hm'
    rcases List.mem_cons.mp hm' with he | hm''
    · subst he
      exact hcur
    · cases hm''
  | cons m ms ih =>
    intro cur hcur hpos m' hm'
    simp only [mergeGo] at hm'
    split at hm'
    · refine ih ⟨cur.a, cur.b, cur.size + m.size⟩ (by simp only; omega)
        (fun x hx => hpos x (List.mem_cons_of_mem m hx)) m' hm'
    · rcases List.mem_cons.mp hm' with he | hm''
      · subst he
        exact hcur
      · exact ih m (hpos m (List.mem_cons_self m ms))
          (fun x hx => hpos x (List.mem_cons_of_mem m hx)) m' hm''

theorem mergeBlocks_cov {a b : List α} {i j : Nat} {xs : List Match}
    (h : Cov a b i j xs) : Cov a b i j (mergeBlocks xs) := by
  cases xs with
  | nil => trivial
  | cons m ms =>
    simp only [Cov] at h
    obtain ⟨h1, h2, h3, h4, h5, h6⟩ := h
    exact mergeGo_cov ms m i j h1 h2 h3 h4 h5 h6

theorem mergeBlocks_endA (i : Nat) (xs : List Match) :
    endA i (mergeBlocks xs) = endA i xs := by
  cases xs with
  | nil => rfl
  | cons m ms =>
    simp only [mergeBlocks, endA]
    exact mergeGo_endA ms m i

theorem mergeBlocks_endB (j : Nat) (xs : List Match) :
    endB j (mergeBlocks xs) = endB j xs := by
  cases xs with
  | nil => rfl
  | cons m ms =>
    simp only [mergeBlocks, endB]
    exact mergeGo_endB ms m j

theorem mergeBlocks_pos {xs : List Match} (h : ∀ m ∈ xs, 0 < m.size) :
    ∀ m' ∈ mergeBlocks xs, 0 < m'.size := by
  cases xs with
  | nil =>
    intro m' hm'
    cases hm'
  | cons m ms =>
    exact mergeGo_pos ms m (h m (List.mem_cons_self m ms))
      (fun x hx => h x (List.mem_cons_of_mem m hx))

theorem get_matching_blocks_cov [DecidableEq α] (e : Engine α) :
    Cov e.a e.b 0 0 e.get_matching_blocks ∧
      endA 0 e.get_matching_blocks = e.a.length ∧
      endB 0 e.get_matching_blocks = e.b.length := by
  have haux := matchingBlocksAux_cov (effJunk e) e.a e.b (e.a.length + 1) 0
    e.a.length 0 e.b.length (by omega) (by omega) (le_refl _) (le_refl _)
  unfold Engine.get_matching_blocks
  set xs := matchingBlocksAux (effJunk e) e.a e.b (e.a.length + 1) 0
    e.a.length 0 e.b.length with hxs
  have hmc := mergeBlocks_cov haux.1
  have hma := mergeBlocks_endA 0 xs
  have hmb := mergeBlocks_endB 0 xs
  refine ⟨?_, ?_, ?_⟩
  · apply cov_append hmc
    simp only [Cov]
    refine ⟨by omega, by omega, by simp, by simp, matchAt_zero e.a e.b _ _,
      trivial⟩
  · rw [endA_append]
    simp [endA]
  · rw [endB_append]
    simp [endB]

theorem get_matching_blocks_pos [DecidableEq α] (e : Engine α) :
    ∀ m ∈ mergeBlocks (matchingBlocksAux (effJunk e) e.a e.b
      (e.a.length + 1) 0 e.a.length 0 e.b.length), 0 < m.size :=
  mergeBlocks_pos (fun m hm =>
    matchingBlocksAux_pos (effJunk e) e.a e.b _ _ _ _ _ m hm)

theorem slice_append {l : List α} {x y z : Nat} (h1 : x ≤ y) (h2 : y ≤ z) :
    slice l x y ++ slice l y z = slice l x z := by
  unfold slice
  have e : z - x = (y - x) + (z - y) := by omega
  rw [e, List.take_add, List.drop_drop]
  have e2 : x + (y - x) = y := by omega
  rw [e2]

theorem slice_zero_length (l : List α) : slice l 0 l.length = l := by
  simp [slice]

theorem matchAt_slice {a b : List α} {i j k : Nat} (h : MatchAt a b i j k) :
    slice a i (i + k) = slice b j (j + k) := by
  unfold slice
  have e1 : i + k - i = k := by omega
  have e2 : j + k - j = k := by omega
  rw [e1, e2]
  apply List.ext_getElem?
  intro n
  by_cases hn : n < k
  · rw [List.getElem?_take_of_lt hn, List.getElem?_take_of_lt hn,
      List.getElem?_drop, List.getElem?_drop]
    exact (h n hn).2
  · rw [List.getElem?_eq_none
      (le_trans (List.length_take_le _ _) (by omega)),
      List.getElem?_eq_none (le_trans (List.length_take_le _ _) (by omega))]

theorem bSlices_append (b : List α) (xs ys : List Opcode) :
    bSlices b (xs ++ ys) = bSlices b xs ++ bSlices b ys := by
  induction xs with
  | nil => simp [bSlices]
  | cons op xs ih =>
    simp only [List.cons_append, bSlices, List.append_eq, ih,
      List.append_assoc]

theorem opcodesAux_bSlices {a b : List α} : ∀ (blocks : List Match) (i j : Nat),
    Cov a b i j blocks →
    bSlices b (opcodesAux i j blocks) = slice b j (endB j blocks) := by
  intro blocks
  induction blocks with
  | nil =>
    intro i j _
    simp [opcodesAux, bSlices, endB, slice]
  | cons m ms ih =>
    intro i j hcov
    simp only [Cov] at hcov
    obtain ⟨h1, h2, h3, h4, h5, h6⟩ := hcov
    have hend := cov_le_end h6
    simp only [opcodesAux, endB]
    rw [bSlices_append, bSlices_append]
    have hpre : bSlices b
        (if i < m.a ∧ j < m.b then [⟨Tag.replace, i, m.a, j, m.b⟩]
         else if i < m.a then [⟨Tag.delete, i, m.a, j, m.b⟩]
         else if j < m.b then [⟨Tag.insert, i, m.a, j, m.b⟩]
         else []) = slice b j m.b := by
      split
      · simp [bSlices]
      · split
        · simp [bSlices]
        · split
          · simp [bSlices]
          · rename_i hc1 hc2 hc3
            have e : m.b = j := by omega
            simp [bSlices, slice, e]
    have heq : bSlices b
        (if 0 < m.size then [⟨Tag.equal, m.a, m.a + m.size, m.b, m.b + m.size⟩]
         else []) = slice b m.b (m.b + m.size) := by
      split
      · simp [bSlices]
      · rename_i hc
        have e : m.size = 0 := by omega
        simp [bSlices, slice, e]
    rw [hpre, heq, ih (m.a + m.size) (m.b + m.size) h6]
    rw [slice_append h2 (Nat.le_add_right m.b m.size)]
    exact slice_append (by omega) hend.2

theorem take_append_left {l1 l2 : List α} {n : Nat} (h : l1.length = n) :
    (l1 ++ l2).take n = l1 := by
  subst h
  exact List.take_left l1 l2

theorem drop_append_plus {l1 l2 : List α} {n k : Nat} (h : l1.length = n) :
    (l1 ++ l2).drop (n + k) = l2.drop k := by
  subst h
  rw [List.drop_append_eq_append_drop]
  have e1 : List.drop (l1.length + k) l1 = [] :=
    List.drop_eq_nil_of_le (by omega)
  have e2 : l1.length + k - l1.length = k := by omega
  rw [e1, e2, List.nil_append]

theorem take_split (l : List α) {x y : Nat} (h : x ≤ y) :
    l.take y = l.take x ++ (l.drop x).take (y - x) := by
  nth_rewrite 1 [show y = x + (y - x) by omega]
  exact List.take_add l x (y - x)

theorem applyOpcode_step {a b : List α} {i j i2 j2 : Nat} (tg : Tag)
    (htg : tg ≠ Tag.equal) (hjb : j ≤ b.length) (hii : i ≤ i2)
    (hjj : j ≤ j2) :
    applyOpcode b (b.take j ++ a.drop i) ⟨tg, i, i2, j, j2⟩ =
      b.take j2 ++ a.drop i2 := by
  have hlen : (b.take j).length = j := by
    rw [List.length_take]
    omega
  have hstep : (b.take j ++ a.drop i).take j ++ slice b j j2 ++
      (b.take j ++ a.drop i).drop (j + (i2 - i)) = b.take j2 ++ a.drop i2 := by
    rw [take_append_left hlen, drop_append_plus hlen, List.drop_drop]
    have e : i + (i2 - i) = i2 := by omega
    rw [e, take_split b hjj]
    rfl
  cases tg
  case equal => exact absurd rfl htg
  all_goals exact hstep

theorem equal_step {a b : List α} {i j k : Nat} (hM : MatchAt a b i j k) :
    b.take j ++ a.drop i = b.take (j + k) ++ a.drop (i + k) := by
  have hs := matchAt_slice hM
  have ha : a.drop i = slice a i (i + k) ++ a.drop (i + k) := by
    unfold slice
    have e : i + k - i = k := by omega
    rw [e, ← List.drop_drop]
    exact (List.take_append_drop k (a.drop i)).symm
  have hb : b.take (j + k) = b.take j ++ slice b j (j + k) := by
    unfold slice
    have e : j + k - j = k := by omega
    rw [e]
    exact List.take_add b j k
  rw [ha, hb, hs, List.append_assoc]

theorem opcodesAux_apply {a b : List α} : ∀ (blocks : List Match) (i j : Nat),
    Cov a b i j blocks → j ≤ b.length →
    List.foldl (applyOpcode b) (b.take j ++ a.drop i) (opcodesAux i j blocks) =
      b.take (endB j blocks) ++ a.drop (endA i blocks) := by
  intro blocks
  induction blocks with
  | nil =>
    intro i j _ _
    simp [opcodesAux, endA, endB]
  | cons m ms ih =>
    intro i j hcov hjb
    simp only [Cov] at hcov
    obtain ⟨h1, h2, h3, h4, h5, h6⟩ := hcov
    simp only [opcodesAux, endA, endB]
    rw [List.foldl_append, List.foldl_append]
    have hpre : List.foldl (applyOpcode b) (b.take j ++ a.drop i)
        (if i < m.a ∧ j < m.b then [⟨Tag.replace, i, m.a, j, m.b⟩]
         else if i < m.a then [⟨Tag.delete, i, m.a, j, m.b⟩]
         else if j < m.b then [⟨Tag.insert, i, m.a, j, m.b⟩]
         else []) = b.take m.b ++ a.drop m.a := by
      split
      · simp only [List.foldl_cons, List.foldl_nil]
        exact applyOpcode_step Tag.replace (by decide) hjb h1 h2
      · split
        · simp only [List.foldl_cons, List.foldl_nil]
          exact applyOpcode_step Tag.delete (by decide) hjb h1 h2
        · split
          · simp only [List.foldl_cons, List.foldl_nil]
            exact applyOpcode_step Tag.insert (by decide) hjb h1 h2
          · rename_i hc1 hc2 hc3
            simp only [List.foldl_nil]
            have e1 : m.a = i := by omega
            have e2 : m.b = j := by omega
            rw [e1, e2]
    have heq : List.foldl (applyOpcode b) (b.take m.b ++ a.drop m.a)
        (if 0 < m.size then
          [⟨Tag.equal, m.a, m.a + m.size, m.b, m.b + m.size⟩]
         else []) = b.take (m.b + m.size) ++ a.drop (m.a + m.size) := by
      split
      · simp only [List.foldl_cons, List.foldl_nil]
        have happ : applyOpcode b (b.take m.b ++ a.drop m.a)
            ⟨Tag.equal, m.a, m.a + m.size, m.b, m.b + m.size⟩ =
            b.take m.b ++ a.drop m.a := rfl
        rw [happ]
        exact equal_step h5
      · rename_i hc
        have e : m.size = 0 := by omega
        simp only [List.foldl_nil, e, Nat.add_zero]
    rw [hpre, heq]
    exact ih (m.a + m.size) (m.b + m.size) h6 (by omega)

theorem applyOpcodes_of_cov {a b : List α} {blocks : List Match}
    (hcov : Cov a b 0 0 blocks) (hA : endA 0 blocks = a.length)
    (hB : endB 0 blocks = b.length) :
    List.foldl (applyOpcode b) a (opcodesAux 0 0 blocks) = b := by
  have h := opcodesAux_apply blocks 0 0 hcov (by omega)
  rw [hA, hB] at h
  simpa using h

theorem bSlices_of_cov {a b : List α} {blocks : List Match}
    (hcov : Cov a b 0 0 blocks) (hB : endB 0 blocks = b.length) :
    bSlices b (opcodesAux 0 0 blocks) = b := by
  have h := opcodesAux_bSlices blocks 0 0 hcov
  rw [hB] at h
  rw [h]
  exact slice_zero_length b

/-- Modelled from the spec: `getOpcodes` in stateful form, returning the
result together with the engine state subsequent calls observe; per spec.md
§3 and §5 queries are read-only, so the engine is returned unchanged. -/
def Engine.get_opcodes_q [DecidableEq α] (e : Engine α) :
    List Opcode × Engine α :=
  (e.get_opcodes, e)

/-- Modelled from the spec: `getMatchingBlocks` in stateful form (read-only,
spec.md §3, §5). -/
def Engine.get_matching_blocks_q [DecidableEq α] (e : Engine α) :
    List Match × Engine α :=
  (e.get_matching_blocks, e)

/-- Modelled from the spec: `findLongestMatch` in stateful form (read-only,
spec.md §3, §5). -/
def Engine.find_longest_match_q [DecidableEq α] (e : Engine α)
    (alo ahi blo bhi : Nat) : Match × Engine α :=
  (e.find_longest_match alo ahi blo bhi, e)

/-- Claim C1: for every engine (any junk predicate and sequences `A`, `B`),
concatenating, in left-to-right order, the `B`-slices `B[j1:j2]` named by the
opcodes returned by `getOpcodes()` reproduces `B` exactly. -/
theorem claim_C1_opcodes_reconstruct_b [DecidableEq α] (e : Engine α) :
    bSlices e.b e.get_opcodes = e.b :=
  bSlices_of_cov (get_matching_blocks_cov e).1 (get_matching_blocks_cov e).2.2

/-- Claim C2: applying each opcode's edit (`equal` a no-op; `replace`,
`delete`, `insert` splicing `B[j1:j2]` over the region the opcode describes)
to a copy of `A`, in the order returned by `getOpcodes()`, yields exactly
`B`. -/
theorem claim_C2_opcodes_apply_to_b [DecidableEq α] (e : Engine α) :
    applyOpcodes e.b e.a e.get_opcodes = e.b :=
  applyOpcodes_of_cov (get_matching_blocks_cov e).1
    (get_matching_blocks_cov e).2.1 (get_matching_blocks_cov e).2.2

/-- Claim C3: `getMatchingBlocks()` always ends with the zero-size sentinel
`(len(A), len(B), 0)`, and the blocks are strictly increasing in both their
`a`-index and their `b`-index. -/
theorem claim_C3_sentinel_and_monotone [DecidableEq α] (e : Engine α) :
    e.get_matching_blocks.getLast? = some ⟨e.a.length, e.b.length, 0⟩ ∧
      List.Pairwise (fun m m' : Match => m.a < m'.a ∧ m.b < m'.b)
        e.get_matching_blocks := by
  have haux := matchingBlocksAux_cov (effJunk e) e.a e.b (e.a.length + 1) 0
    e.a.length 0 e.b.length (by omega) (by omega) (le_refl _) (le_refl _)
  have hmc := mergeBlocks_cov haux.1
  have hpos := get_matching_blocks_pos e
  constructor
  · unfold Engine.get_matching_blocks
    exact List.getLast?_concat _
  · unfold Engine.get_matching_blocks
    rw [List.pairwise_append]
    refine ⟨cov_pairwise hmc hpos, List.pairwise_singleton _ _, ?_⟩
    intro m hm m' hm'
    rcases List.mem_singleton.mp hm' with he
    subst he
    have hmem := cov_mem hmc m hm
    have hma := mergeBlocks_endA 0 (matchingBlocksAux (effJunk e) e.a e.b
      (e.a.length + 1) 0 e.a.length 0 e.b.length)
    have hmb := mergeBlocks_endB 0 (matchingBlocksAux (effJunk e) e.a e.b
      (e.a.length + 1) 0 e.a.length 0 e.b.length)
    have hp := hpos m hm
    simp only
    constructor
    · omega
    · omega

/-- Claim C4 (counterexample): with the space-junk engine of the source demo
(`difflib_test.py` lines 108-112) there is a match of size `5` within the
valid ranges — `A[0:5] == B[4:9]` — yet `findLongestMatch(0,5,0,9)` returns a
match of size `4`, so the claim as stated (maximum size over all matches in
the ranges, for every engine) is false once a junk predicate is present. -/
theorem claim_C4_counterexample :
    IsMatchWithin engineJunk.a engineJunk.b 0 5 0 9 0 4 5 ∧
      (engineJunk.find_longest_match 0 5 0 9).size = 4 := by
  refine ⟨by decide, by decide⟩

/-- Claim C4 (amended): for engines whose effective junk classification marks
no element of `B` as junk, `findLongestMatch` on valid ranges returns a match
lying within the ranges, of maximum size among all matches there, preferring
the smallest `a`-index and then the smallest `b`-index among maximum-size
matches. -/
theorem claim_C4_find_longest_match_optimal [DecidableEq α] (e : Engine α)
    (alo ahi blo bhi : Nat) (hab : alo ≤ ahi) (haa : ahi ≤ e.a.length)
    (hbb : blo ≤ bhi) (hbl : bhi ≤ e.b.length)
    (hnj : ∀ t, t < e.b.length → junkAt (effJunk e) e.b t = false) :
    IsMatchWithin e.a e.b alo ahi blo bhi
      (e.find_longest_match alo ahi blo bhi).a
      (e.find_longest_match alo ahi blo bhi).b
      (e.find_longest_match alo ahi blo bhi).size ∧
    (∀ i j k, IsMatchWithin e.a e.b alo ahi blo bhi i j k →
      k ≤ (e.find_longest_match alo ahi blo bhi).size) ∧
    (∀ i j k, IsMatchWithin e.a e.b alo ahi blo bhi i j k →
      k = (e.find_longest_match alo ahi blo bhi).size →
      (e.find_longest_match alo ahi blo bhi).a ≤ i) ∧
    (∀ i j k, IsMatchWithin e.a e.b alo ahi blo bhi i j k →
      k = (e.find_longest_match alo ahi blo bhi).size →
      i = (e.find_longest_match alo ahi blo bhi).a →
      (e.find_longest_match alo ahi blo bhi).b ≤ j) := by
  have hnj' : ∀ t, junkAt (effJunk e) e.b t = false := by
    intro t
    by_cases h : t < e.b.length
    · exact hnj t h
    · unfold junkAt
      rw [List.getElem?_eq_none (by omega)]
  exact flmCore_optimal (effJunk e) e.a e.b alo ahi blo bhi hab hbb hnj'

/-- Witness for the amended C4 at a concrete junk-free engine and ranges. -/
theorem claim_C4_find_longest_match_optimal_witness :
    IsMatchWithin (SequenceDiffEngine.new none [1, 2] [3, 1, 2]).a
      (SequenceDiffEngine.new none [1, 2] [3, 1, 2]).b 0 2 0 3
      ((SequenceDiffEngine.new none [1, 2] [3, 1, 2]).find_longest_match
        0 2 0 3).a
      ((SequenceDiffEngine.new none [1, 2] [3, 1, 2]).find_longest_match
        0 2 0 3).b
      ((SequenceDiffEngine.new none [1, 2] [3, 1, 2]).find_longest_match
        0 2 0 3).size ∧
    (∀ i j k, IsMatchWithin (SequenceDiffEngine.new none [1, 2] [3, 1, 2]).a
      (SequenceDiffEngine.new none [1, 2] [3, 1, 2]).b 0 2 0 3 i j k →
      k ≤ ((SequenceDiffEngine.new none [1, 2] [3, 1, 2]).find_longest_match
        0 2 0 3).size) ∧
    (∀ i j k, IsMatchWithin (SequenceDiffEngine.new none [1, 2] [3, 1, 2]).a
      (SequenceDiffEngine.new none [1, 2] [3, 1, 2]).b 0 2 0 3 i j k →
      k = ((SequenceDiffEngine.new none [1, 2] [3, 1, 2]).find_longest_match
        0 2 0 3).size →
      ((SequenceDiffEngine.new none [1, 2] [3, 1, 2]).find_longest_match
        0 2 0 3).a ≤ i) ∧
    (∀ i j k, IsMatchWithin (SequenceDiffEngine.new none [1, 2] [3, 1, 2]).a
      (SequenceDiffEngine.new none [1, 2] [3, 1, 2]).b 0 2 0 3 i j k →
      k = ((SequenceDiffEngine.new none [1, 2] [3, 1, 2]).find_longest_match
        0 2 0 3).size →
      i = ((SequenceDiffEngine.new none [1, 2] [3, 1, 2]).find_longest_match
        0 2 0 3).a →
      ((SequenceDiffEngine.new none [1, 2] [3, 1, 2]).find_longest_match
        0 2 0 3).b ≤ j) :=
  claim_C4_find_longest_match_optimal
    (SequenceDiffEngine.new none [1, 2] [3, 1, 2]) 0 2 0 3 (by decide)
    (by decide) (by decide) (by decide) (by decide)

/-- Claim C5: with junk predicate `isSpace`, `A = " abcd"`, `B = "abcd abcd"`,
`findLongestMatch(0,5,0,9)` returns the size-4 match `(1, 0, 4)` covering the
block `"abcd"`, whereas without a junk predicate the same call returns the
size-5 match `(0, 4, 5)` starting at `A[0]` through the leading space. -/
theorem claim_C5_junk_example :
    engineJunk.find_longest_match 0 5 0 9 = ⟨1, 0, 4⟩ ∧
      slice engineJunk.a 1 5 = "abcd".toList ∧
      slice engineJunk.b 0 4 = "abcd".toList ∧
      engineNoJunk.find_longest_match 0 5 0 9 = ⟨0, 4, 5⟩ := by
  refine ⟨by decide, by decide, by decide, by decide⟩

/-- Claim C6: on any engine the queries are deterministic and mutate no engine
state: running `getOpcodes()` twice on the same instance yields identical
results, and each query returns the engine unchanged. -/
theorem claim_C6_queries_pure [DecidableEq α] (e : Engine α) :
    e.get_opcodes_q.2.get_opcodes_q.1 = e.get_opcodes_q.1 ∧
      e.get_opcodes_q.2 = e ∧
      e.get_matching_blocks_q.2 = e ∧
      (∀ alo ahi blo bhi, (e.find_longest_match_q alo ahi blo bhi).2 = e) ∧
      e.get_opcodes_q.2.get_matching_blocks_q.1 = e.get_matching_blocks_q.1 :=
  ⟨rfl, rfl, rfl, fun _ _ _ _ => rfl, rfl⟩

/-- Claim C7: a call to `findLongestMatch` with indices outside the valid
ranges is reported as an `InvalidRange` error (the checked entry point is a
total function, so no condition is process-fatal). -/
theorem claim_C7_invalid_range_reported [DecidableEq α] (e : Engine α)
    (alo ahi blo bhi : Nat)
    (h : ¬ (alo ≤ ahi ∧ ahi ≤ e.a.length ∧ blo ≤ bhi ∧ bhi ≤ e.b.length)) :
    e.find_longest_match_checked alo ahi blo bhi =
      Except.error DiffError.InvalidRange := by
  unfold Engine.find_longest_match_checked
  rw [if_neg h]

/-- Witness for C7 at a concrete out-of-range call (`ahi` beyond `len(A)`). -/
theorem claim_C7_invalid_range_reported_witness :
    (SequenceDiffEngine.new none [0] [0]).find_longest_match_checked 0 2 0 1 =
      Except.error DiffError.InvalidRange :=
  claim_C7_invalid_range_reported (SequenceDiffEngine.new none [0] [0]) 0 2 0 1
    (by decide)

/-- Claim C8: empty sequences are valid constructor inputs that never raise
`InvalidInput` (only null inputs do); with `A = []`, `B = []`, `getOpcodes()`
yields no opcodes, and with `A = []`, `B = [1,2,3]` it yields exactly the
single insert opcode `(0, 0, 0, 3)`. -/
theorem claim_C8_empty_sequences :
    (∀ (isjunk : Option (Nat → Bool)) (a b : List Nat),
      SequenceDiffEngine.newChecked isjunk (some a) (some b) =
        Except.ok (SequenceDiffEngine.new isjunk a b)) ∧
    (SequenceDiffEngine.new none ([] : List Nat) []).get_opcodes = [] ∧
    (SequenceDiffEngine.new none ([] : List Nat) [1, 2, 3]).get_opcodes =
      [⟨Tag.insert, 0, 0, 0, 3⟩] :=
  ⟨fun _ _ _ => rfl, by decide, by decide⟩

end SeqDiff

namespace LambdaDemo

/-- Number of distinct characters of a string: `len(set(x))`, the sort key of
`src/basics/lambda.py` line 10. -/
def distinctCount (s : List Char) : Nat :=
  s.dedup.length

/-- Stable insertion into a list already sorted by `key`: the new element goes
after all elements with a strictly smaller key and before any element with an
equal key (which was originally later in the input). -/
def insertStable (key : List Char → Nat) (x : List Char) :
    List (List Char) → List (List Char)
  | [] => [x]
  | y :: ys =>
    if key y < key x then y :: insertStable key x ys else x :: y :: ys

/-- Stable ascending sort by `key`, modelling Python's stable `list.sort`
used at `src/basics/lambda.py` line 10. -/
def sortByKey (key : List Char → Nat) : List (List Char) → List (List Char)
  | [] => []
  | x :: xs => insertStable key x (sortByKey key xs)

/-- The fixed input list of `lambda_test` (`src/basics/lambda.py` line 9). -/
def lambda_test_strings : List (List Char) :=
  ["foo".toList, "card".toList, "bar".toList, "aaaa".toList, "abab".toList]

/-- The characters `lambda_test` prints: the sorted strings joined by single
spaces (line 12) plus the newline `print` appends. -/
def lambda_test_output : List Char :=
  List.intercalate [' '] (sortByKey distinctCount lambda_test_strings) ++
    ['\n']

/-- Claim C9: `lambda_test` sorts the fixed list by number of distinct
characters with a stable sort — `'foo'` and `'abab'` tie at 2 distinct
characters and keep their original order — and prints exactly
`'aaaa foo abab bar card'` followed by a newline, as the unit test asserts. -/
theorem claim_C9_lambda_test :
    sortByKey distinctCount lambda_test_strings =
      ["aaaa".toList, "foo".toList, "abab".toList, "bar".toList,
        "card".toList] ∧
    distinctCount "foo".toList = 2 ∧ distinctCount "abab".toList = 2 ∧
    lambda_test_output = "aaaa foo abab bar card\n".toList := by
  refine ⟨by decide, by decide, by decide, by decide⟩

end LambdaDemo

namespace TemplateDemo

/-- A parsed template token: literal text or a `$name` placeholder. -/
inductive Tok where
  | lit : List Char → Tok
  | ph : List Char → Tok
  deriving DecidableEq

/-- Identifier characters of `string.Template`'s default `$name` pattern. -/
def isIdentChar (c : Char) : Bool :=
  c.isAlpha || c.isDigit || decide (c = '_')

/-- Split the longest identifier prefix off a character list. -/
def takeIdent : List Char → List Char × List Char
  | [] => ([], [])
  | c :: rest =>
    if isIdentChar c then
      let p := takeIdent rest
      (c :: p.1, p.2)
    else ([], c :: rest)

/-- Modelled from the spec: the library `string.Template` (PEP 292) is not
part of the repository's sources; this tokenizer follows the default pattern
documented in `src/string_test/string_template.py` (lines 78-96): `$$` is an
escaped dollar, `$name` a named placeholder, anything else literal text;
`fuel` is instantiated with the input length. -/
def parseTokens : Nat → List Char → List Tok
  | 0, _ => []
  | _, [] => []
  | fuel + 1, '$' :: '$' :: rest => Tok.lit ['$'] :: parseTokens fuel rest
  | fuel + 1, '$' :: rest =>
    match takeIdent rest with
    | ([], _) => Tok.lit ['$'] :: parseTokens fuel rest
    | (name, rest') => Tok.ph name :: parseTokens fuel rest'
  | fuel + 1, c :: rest => Tok.lit [c] :: parseTokens fuel rest

/-- Parse a whole template. -/
def parseTemplate (s : List Char) : List Tok :=
  parseTokens s.length s

/-- First binding of a name in the value mapping. -/
def lookupVal (values : List (List Char × List Char)) (n : List Char) :
    Option (List Char) :=
  match values with
  | [] => none
  | (k, v) :: rest => if k = n then some v else lookupVal rest n

/-- Modelled from the spec: `Template.substitute` as documented in
`src/string_test/string_template.py` (lines 139-148) — produces the
substituted text, or reports the first placeholder missing from the mapping
(Python raises `KeyError` with that name and produces no output). -/
def substitute (values : List (List Char × List Char)) :
    List Tok → Except (List Char) (List Char)
  | [] => Except.ok []
  | Tok.lit s :: rest =>
    match substitute values rest with
    | Except.ok out => Except.ok (s ++ out)
    | Except.error e => Except.error e
  | Tok.ph n :: rest =>
    match lookupVal values n with
    | none => Except.error n
    | some v =>
      match substitute values rest with
      | Except.ok out => Except.ok (v ++ out)
      | Except.error e => Except.error e

/-- Modelled from the spec: `Template.safe_substitute` as demonstrated at
`src/string_test/string_template.py` line 45 — substitutes the bound
placeholders and leaves the text of unbound placeholders (`$` plus name)
unchanged. -/
def safe_substitute (values : List (List Char × List Char)) :
    List Tok → List Char
  | [] => []
  | Tok.lit s :: rest => s ++ safe_substitute values rest
  | Tok.ph n :: rest =>
    (match lookupVal values n with
     | none => '$' :: n
     | some v => v) ++ safe_substitute values rest

/-- The template of `src/string_test/string_template.py` line 38. -/
def demoTemplate : List Tok :=
  parseTemplate "$var is here but $missing is not provided.".toList

/-- The value mapping of `src/string_test/string_template.py` line 12. -/
def demoValues : List (List Char × List Char) :=
  [("var".toList, "foo".toList)]

/-- Claim C10: on the demo template with only `var` bound, `substitute()`
raises `KeyError('missing')` and produces no output, while
`safe_substitute()` succeeds, substituting the bound placeholder and leaving
the text `$missing` unchanged. -/
theorem claim_C10_template_substitute :
    substitute demoValues demoTemplate = Except.error "missing".toList ∧
    safe_substitute demoValues demoTemplate =
      "foo is here but $missing is not provided.".toList := by
  refine ⟨rfl, by decide⟩

end TemplateDemo
